import Mathlib

/-!
Verification development for the SkyImage temporal-matching and
classification core.  The Python functions of the repository are shallowly
embedded as Lean definitions: Python integers become Int or Nat, Python
floats become exact rationals, a float NaN becomes none in an Option,
digit strings become lists of digits (most significant digit first), and
raising an exception becomes returning an error value.
-/

/-- Extraction of base-b digits, least significant digit first, written
with explicit fuel so that the definition is structural and
kernel-computable.  This mirrors the repeated divmod that Python uses to
build the digit string of an integer. -/
def pyDigitsAux (b : Nat) : Nat → Nat → List Nat
  | _, 0 => []
  | 0, _ + 1 => []
  | f + 1, n + 1 => (n + 1) % b :: pyDigitsAux b f ((n + 1) / b)

/-- Base-b digits of n, least significant first; empty list for n = 0. -/
def digitsInBase (b n : Nat) : List Nat :=
  pyDigitsAux b n n

/-- Value of a least-significant-first digit list in base b. -/
def ofDigitsLE (b : Nat) (l : List Nat) : Nat :=
  l.foldr (fun d acc => d + b * acc) 0

/-- Embedding of Python bin(v) stripped of the 0b marker: the base-2 digit
string of v, most significant digit first, and the single digit 0 when
v = 0 (skyimage/stations/Sky/utils/utils.py, decimal_to_binary). -/
def pyBin (v : Nat) : List Nat :=
  if v = 0 then [0] else (digitsInBase 2 v).reverse

/-- Embedding of Python int(s) on a digit string: the digits, most
significant first, are reinterpreted in base 10. -/
def pyIntOfDigits (l : List Nat) : Nat :=
  ofDigitsLE 10 l.reverse

/-- Embedding of the Python format spec 0{w} applied to a natural number:
the base-10 digit string of n, left padded with zeros to width w. -/
def pyFormatPad (w n : Nat) : List Nat :=
  let d := if n = 0 then [0] else (digitsInBase 10 n).reverse
  List.replicate (w - d.length) 0 ++ d

/-- Embedding of decimal_to_binary from
skyimage/stations/Sky/utils/utils.py: take the binary digit string of v,
reinterpret that digit string as a decimal integer, and format that
integer back to a decimal digit string zero padded to width 32. -/
def decimal_to_binary (v : Nat) : List Nat :=
  pyFormatPad 32 (pyIntOfDigits (pyBin v))

/-- Embedding of binary_to_decimal from
skyimage/stations/Sky/utils/utils.py: int(s, 2) on a most-significant
first digit string. -/
def binary_to_decimal (l : List Nat) : Nat :=
  ofDigitsLE 2 l.reverse

/-- The left-zero-padded 32-bit binary representation of v, most
significant bit first, stated directly from the words of the spec. -/
def specPaddedBits (v : Nat) : List Nat :=
  (List.range 32).map (fun i => v / 2 ^ (31 - i) % 2)

/-- Normalization of one Python slice endpoint for a list of the given
length: a negative index counts from the end and clamps at 0, a
non-negative index clamps at the length. -/
def pySliceIdx (len : Nat) (i : Int) : Nat :=
  if i < 0 then (i + len).toNat else min i.toNat len

/-- Embedding of the Python slice l[s:e] with unit step. -/
def pySlice {α : Type} (l : List α) (s e : Int) : List α :=
  (l.take (pySliceIdx l.length e)).drop (pySliceIdx l.length s)

/-- Embedding of the bit-range extraction of SkyScene.process
(skyimage/stations/Sky/SkyScene.py): with binary the 32-character string
for the pixel value, end_i = len(binary) - start_bit and
start_i = end_i - (end_bit - start_bit) - 1, the mapped octet is
binary[start_i:end_i] and its value is binary_to_decimal of it. -/
def decodeField (v start_bit end_bit : Nat) : Nat :=
  let binary := decimal_to_binary v
  let end_i : Int := (binary.length : Int) - start_bit
  let start_i : Int := end_i - ((end_bit : Int) - start_bit) - 1
  binary_to_decimal (pySlice binary start_i end_i)

/-- Decoding of a single packed value against a named bit-range table:
the inner loop of SkyScene.process, one pixel. -/
def decode (v : Nat) (ranges : List (String × Nat × Nat)) : List (String × Nat) :=
  ranges.map (fun r => (r.1, decodeField v r.2.1 r.2.2))

/-- The canonical MODIS bit-range table NUM_MAPPINGS from
skyimage/stations/Sky/utils/utils.py, with each range parsed into its
inclusive (start_bit, end_bit) pair. -/
def NUM_MAPPINGS : List (String × Nat × Nat) :=
  [("CLD", 0, 7), ("CLD_SHDW", 8, 15), ("ADJ_CLD", 16, 23), ("SNW", 24, 31)]

/-- Python dict.get(k, 0) on an insertion-ordered association list. -/
def dictGet : List (String × Nat) → String → Nat
  | [], _ => 0
  | p :: rest, k => if p.1 = k then p.2 else dictGet rest k

/-- Key membership test for the association-list model of a Python dict. -/
def dictHas : List (String × Nat) → String → Bool
  | [], _ => false
  | p :: rest, k => if p.1 = k then true else dictHas rest k

/-- Python dict assignment d[k] = v: an existing key keeps its position
and gets the new value, a new key is appended at the end, preserving
insertion order. -/
def dictSet (d : List (String × Nat)) (k : String) (v : Nat) : List (String × Nat) :=
  if dictHas d k then d.map (fun p => if p.1 = k then (k, v) else p) else d ++ [(k, v)]

/-- One inner-loop step of the accumulation in SkyScene.process:
processed_dict[k] = mapped_decimal + processed_dict.get(k, 0). -/
def accumOne (v : Nat) (d : List (String × Nat)) (r : String × Nat × Nat) : List (String × Nat) :=
  dictSet d r.1 (decodeField v r.2.1 r.2.2 + dictGet d r.1)

/-- Embedding of the per-pixel accumulation loop of SkyScene.process
(skyimage/stations/Sky/SkyScene.py): for each pixel of the flattened CRNM
array, every named bit range contributes its decoded value to a running
per-name total, starting from an empty dict. -/
def decode_accumulate (pixels : List Nat) (ranges : List (String × Nat × Nat)) :
    List (String × Nat) :=
  pixels.foldl (fun d p => ranges.foldl (accumOne p) d) []

/-- State of the time-delta resolver STDDelta from
skyimage/stations/Ground/utils/utils.py: the chosen timestamp, its
seconds value (initialized to 86400) and the chosen file path.
Timestamps are modeled as integer seconds. -/
structure STDDelta where
  std : Option Int
  seconds : Int
  path : Option String
deriving DecidableEq

/-- STDDelta.min_resolver: replace the stored candidate only when the new
seconds value is strictly smaller than the stored one. -/
def min_resolver (r : STDDelta) (std : Int) (seconds : Int) (path : String) : STDDelta :=
  if r.seconds ≤ seconds then r else { std := some std, seconds := seconds, path := some path }

/-- The value of the Python attribute timedelta.seconds on the difference
of two datetimes: the difference in seconds reduced modulo 86400, always
non-negative (the day component of the timedelta is discarded). -/
def pyTimedeltaSeconds (d : Int) : Int :=
  d % 86400

/-- Embedding of the candidate scan of GroundImage.__find_matching_image
(skyimage/stations/Ground/GroundImage.py): for every discovered file, the
parsed timestamp and the seconds attribute of (timestamp - target_time)
are fed to STDDelta.min_resolver. -/
def find_matching_image (target : Int) (files : List (Int × String)) : STDDelta :=
  files.foldl
    (fun r f => min_resolver r f.1 (pyTimedeltaSeconds (f.1 - target)) f.2)
    { std := none, seconds := 86400, path := none }

/-- Cloud-mask labels.  In GroundImage.process the value 1 returned by
f_above_or_below is summed into number_clear, so 1 plays the part of
CLEAR and 0 of CLOUD in the percent-cloud formula. -/
inductive Label where
  | CLOUD : Label
  | CLEAR : Label
deriving DecidableEq

/-- Python comparison a < b where a may be float NaN (none): any
comparison with NaN is False. -/
def pyLt (a : Option ℚ) (b : ℚ) : Bool :=
  match a with
  | none => false
  | some q => decide (q < b)

/-- Python comparison a > b where a may be float NaN (none). -/
def pyGt (a : Option ℚ) (b : ℚ) : Bool :=
  match a with
  | none => false
  | some q => decide (b < q)

/-- np.min over the x column of the boundary. -/
def boundaryMinX (b : List (ℚ × ℚ)) : ℚ :=
  match b.map Prod.fst with
  | [] => 0
  | x :: xs => xs.foldl min x

/-- np.max over the x column of the boundary. -/
def boundaryMaxX (b : List (ℚ × ℚ)) : ℚ :=
  match b.map Prod.fst with
  | [] => 0
  | x :: xs => xs.foldl max x

/-- Embedding of f_above_or_below from
skyimage/stations/Ground/utils/image.py: domain check on the x
coordinate, then scan for the first boundary vertex whose y coordinate is
exceeded by the y coordinate of the point; with no such vertex the result
is 0, otherwise 0 when the x coordinate is left of that vertex and 1
otherwise. -/
def f_above_or_below (p : Option ℚ × Option ℚ) (boundary : List (ℚ × ℚ)) : Except String Nat :=
  if pyLt p.1 (boundaryMinX boundary) || pyGt p.1 (boundaryMaxX boundary) then
    .error "(BI, SI) point falls outside boundary decision line"
  else
    match boundary.find? (fun v => pyGt p.2 v.2) with
    | none => .ok 0
    | some v => if pyLt p.1 v.1 then .ok 0 else .ok 1

/-- The fixed decision boundary built in GroundImage.process:
x = [0, .1, .35, .7, .8, 1] and y = [1, .6, .35, .15, .1, 0]. -/
def canonicalBoundary : List (ℚ × ℚ) :=
  [(0, 1), (1/10, 3/5), (7/20, 7/20), (7/10, 3/20), (4/5, 1/10), (1, 0)]

/-- The label a valid (BI, SI) point receives in GroundImage.process:
result 1 is counted in number_clear, every other result is cloud. -/
def labelOfResult (n : Nat) : Label :=
  if n = 1 then Label.CLEAR else Label.CLOUD

/-- Classification of one valid (BI, SI) point against the canonical
boundary, as performed by GroundImage.process. -/
def classify (p : ℚ × ℚ) : Except String Label :=
  (f_above_or_below (some p.1, some p.2) canonicalBoundary).map labelOfResult

/-- The per-pixel classification loop of GroundImage.process over the
zipped flattened BI and SI channels; the first out-of-domain point aborts
with the ValueError of f_above_or_below. -/
def classify_image (bi si : List (Option ℚ)) : Except String (List Nat) :=
  (bi.zip si).mapM (fun p => f_above_or_below p canonicalBoundary)

/-- The valid-pixel count of GroundImage.process: the number of non-NaN
scalar entries of the stacked two-column (BI, SI) array, divided by 2
with float division. -/
def pixel_total (bi si : List (Option ℚ)) : ℚ :=
  let c : Nat := ((bi.zip si).map
      (fun p => (if p.1.isSome then (1 : Nat) else 0) + (if p.2.isSome then 1 else 0))).sum
  (c : ℚ) / 2

/-- Round half to even of an exact rational, the rounding mode of Python
round on the exact value. -/
def roundHalfEven (x : ℚ) : Int :=
  let f : Int := x.floor
  let r : ℚ := x - f
  if r < 1 / 2 then f
  else if 1 / 2 < r then f + 1
  else if f % 2 = 0 then f else f + 1

/-- Python round(x, 2) on an exact rational value. -/
def pyRound2 (x : ℚ) : ℚ :=
  (roundHalfEven (x * 100) : ℚ) / 100

/-- Value of the inline percentage computation of SkyScene.process. -/
inductive FloatVal where
  | finite : ℚ → FloatVal
  | posInf : FloatVal
  | negInf : FloatVal
  | nan : FloatVal
deriving DecidableEq

/-- Embedding of the inline percentage computation of SkyScene.process:
round((n_present_pixels / avg_pixel_total) * 100, 2).  The denominator
avg_pixel_total is a NumPy integer scalar (the sum of the NPA window), so
a zero denominator does not raise: NumPy emits a RuntimeWarning and the
division yields infinity, or nan for 0/0; round of infinity or nan
returns it unchanged. -/
def percent_of_total (count total : ℚ) : FloatVal :=
  if total = 0 then
    if 0 < count then .posInf
    else if count < 0 then .negInf
    else .nan
  else .finite (pyRound2 (count / total * 100))

/-- Result record of extract_stats. -/
structure StatsR where
  mean : Option ℚ
  max : Option ℚ
  min : Option ℚ
deriving DecidableEq

/-- np.nanmean: mean over the non-NaN entries, NaN (none) when every
entry is NaN. -/
def nanmean (l : List (Option ℚ)) : Option ℚ :=
  let v := l.filterMap id
  if v.length = 0 then none else some (v.sum / (v.length : ℚ))

/-- np.nanmax: maximum over the non-NaN entries, NaN (none) when every
entry is NaN. -/
def nanmax (l : List (Option ℚ)) : Option ℚ :=
  match l.filterMap id with
  | [] => none
  | x :: xs => some (xs.foldl max x)

/-- np.nanmin: minimum over the non-NaN entries, NaN (none) when every
entry is NaN. -/
def nanmin (l : List (Option ℚ)) : Option ℚ :=
  match l.filterMap id with
  | [] => none
  | x :: xs => some (xs.foldl min x)

/-- Embedding of extract_stats (skyimage/stations/Ground/utils/image.py
and the inner __extract_stats of GroundImage.process): round(np.nanmean),
round(np.nanmax), round(np.nanmin), each to 2 decimals; round of NaN is
NaN. -/
def extract_stats (l : List (Option ℚ)) : StatsR :=
  { mean := (nanmean l).map pyRound2
    max := (nanmax l).map pyRound2
    min := (nanmin l).map pyRound2 }

/-- pandas add_prefix on the field names of one record. -/
def addPre (pre : String) (fields : List (String × ℚ)) : List (String × ℚ) :=
  fields.map (fun f => (pre ++ f.1, f.2))

/-- First-match association lookup on string keys. -/
def assocFind? {β : Type} : List (String × β) → String → Option β
  | [], _ => none
  | p :: rest, k => if p.1 = k then some p.2 else assocFind? rest k

/-- Embedding of the correlated-results construction of SkyImage.results
(skyimage/app.py): the per-day sky and ground records are prefixed with
sky_ and grnd_ and combined with pandas merge on the day keys; the inner
merge keeps exactly the keys present on both sides, in the key order of
the left (sky) frame. -/
def correlate (sky ground : List (String × List (String × ℚ))) :
    List (String × List (String × ℚ)) :=
  sky.filterMap (fun s =>
    match assocFind? ground s.1 with
    | some g => some (s.1, addPre "sky_" s.2 ++ addPre "grnd_" g)
    | none => none)

instance {ε α : Type} [DecidableEq ε] [DecidableEq α] : DecidableEq (Except ε α) := by
  intro x y
  cases x <;> cases y
  case error.error a b =>
    exact if h : a = b then .isTrue (by rw [h]) else .isFalse (by intro hc; cases hc; exact h rfl)
  case error.ok a b => exact .isFalse (by intro hc; cases hc)
  case ok.error a b => exact .isFalse (by intro hc; cases hc)
  case ok.ok a b =>
    exact if h : a = b then .isTrue (by rw [h]) else .isFalse (by intro hc; cases hc; exact h rfl)

/-- Example sky-side per-day results for the C8 witness. -/
def skyEx : List (String × List (String × ℚ)) :=
  [("2020100", [("n_TOTAL", 9)])]

/-- Example ground-side per-day results for the C8 witness. -/
def groundEx : List (String × List (String × ℚ)) :=
  [("2020100", [("prcnt_cld", 42)]), ("2020101", [("prcnt_cld", 7)])]

/-- The classification value of one point, with the error case collapsed
to 0; used to describe the mask produced by classify_image on in-domain
input. -/
def fPure (p : Option ℚ × Option ℚ) : Nat :=
  match f_above_or_below p canonicalBoundary with
  | .ok n => n
  | .error _ => 0

/-- Number of pixel positions whose BI and SI coordinates are both
valid. -/
def countBothValid (bi si : List (Option ℚ)) : Nat :=
  ((bi.zip si).filter (fun p => p.1.isSome && p.2.isSome)).length

/-- Number of pixel positions with exactly one valid coordinate. -/
def countOneValid (bi si : List (Option ℚ)) : Nat :=
  ((bi.zip si).filter (fun p => p.1.isSome != p.2.isSome)).length

lemma pyDigitsAux_zero (b f : Nat) : pyDigitsAux b f 0 = [] := by
  cases f <;> rfl

lemma pyDigitsAux_succ (b f n : Nat) :
    pyDigitsAux b (f + 1) (n + 1) = (n + 1) % b :: pyDigitsAux b f ((n + 1) / b) := rfl

lemma div_le_self_of_two_le {b : Nat} (hb : 2 ≤ b) (n : Nat) : (n + 1) / b ≤ n := by
  have h1 : (n + 1) / b ≤ (n + 1) / 2 := Nat.div_le_div_left hb (by omega)
  have h2 : (n + 1) / 2 ≤ n := by omega
  omega

lemma pyDigitsAux_stable {b : Nat} (hb : 2 ≤ b) :
    ∀ n f, n ≤ f → pyDigitsAux b f n = digitsInBase b n := by
  intro n
  induction n using Nat.strong_induction_on with
  | _ n ih =>
    intro f hf
    cases n with
    | zero => rw [pyDigitsAux_zero]; rfl
    | succ m =>
      cases f with
      | zero => omega
      | succ g =>
        have hm : (m + 1) / b ≤ m := div_le_self_of_two_le hb m
        show pyDigitsAux b (g + 1) (m + 1) = pyDigitsAux b (m + 1) (m + 1)
        rw [pyDigitsAux_succ, pyDigitsAux_succ]
        congr 1
        rw [ih ((m + 1) / b) (by omega) g (by omega),
          ih ((m + 1) / b) (by omega) m hm]

lemma digitsInBase_zero (b : Nat) : digitsInBase b 0 = [] := rfl

lemma digitsInBase_eq {b : Nat} (hb : 2 ≤ b) (n : Nat) (hn : n ≠ 0) :
    digitsInBase b n = n % b :: digitsInBase b (n / b) := by
  obtain ⟨m, rfl⟩ : ∃ m, n = m + 1 := ⟨n - 1, by omega⟩
  show pyDigitsAux b (m + 1) (m + 1) = _
  rw [pyDigitsAux_succ]
  congr 1
  exact pyDigitsAux_stable hb ((m + 1) / b) m (div_le_self_of_two_le hb m)

lemma digitsInBase_getD (v i : Nat) : (digitsInBase 2 v).getD i 0 = v / 2 ^ i % 2 := by
  induction v using Nat.strong_induction_on generalizing i with
  | _ v ih =>
    by_cases hv : v = 0
    · subst hv
      simp [digitsInBase_zero]
    · rw [digitsInBase_eq (by norm_num) v hv]
      cases i with
      | zero => simp
      | succ j =>
        have hlt : v / 2 < v := Nat.div_lt_self (by omega) (by omega)
        have := ih (v / 2) hlt (i := j)
        simp only [List.getD_cons_succ, this]
        rw [Nat.div_div_eq_div_mul, ← pow_succ']

lemma ofDigitsLE_nil (b : Nat) : ofDigitsLE b [] = 0 := rfl

lemma ofDigitsLE_cons (b d : Nat) (l : List Nat) :
    ofDigitsLE b (d :: l) = d + b * ofDigitsLE b l := rfl

lemma ofDigitsLE_digitsInBase {b : Nat} (hb : 2 ≤ b) (v : Nat) :
    ofDigitsLE b (digitsInBase b v) = v := by
  induction v using Nat.strong_induction_on with
  | _ v ih =>
    by_cases hv : v = 0
    · subst hv; rfl
    · rw [digitsInBase_eq hb v hv, ofDigitsLE_cons,
        ih (v / b) (Nat.div_lt_self (by omega) (by omega))]
      exact Nat.mod_add_div v b

lemma digitsInBase_length_le (k : Nat) : ∀ v, v < 2 ^ k → (digitsInBase 2 v).length ≤ k := by
  induction k with
  | zero =>
    intro v hv
    interval_cases v
    simp [digitsInBase_zero]
  | succ k ih =>
    intro v hv
    by_cases hv0 : v = 0
    · subst hv0; simp [digitsInBase_zero]
    · rw [digitsInBase_eq (by norm_num) v hv0]
      have : v / 2 < 2 ^ k := by
        rw [Nat.div_lt_iff_lt_mul (by omega)]
        calc v < 2 ^ (k + 1) := hv
        _ = 2 ^ k * 2 := by rw [pow_succ]
      simpa using ih (v / 2) this

lemma digitsInBase_mem_lt {b : Nat} (hb : 2 ≤ b) (v : Nat) :
    ∀ d ∈ digitsInBase b v, d < b := by
  induction v using Nat.strong_induction_on with
  | _ v ih =>
    by_cases hv : v = 0
    · subst hv; simp [digitsInBase_zero]
    · rw [digitsInBase_eq hb v hv]
      intro d hd
      rcases List.mem_cons.mp hd with h | h
      · subst h; exact Nat.mod_lt v (by omega)
      · exact ih (v / b) (Nat.div_lt_self (by omega) (by omega)) d h

lemma digitsInBase_getLast {b : Nat} (hb : 2 ≤ b) (v : Nat) (hv : v ≠ 0) :
    ∀ d, (digitsInBase b v).getLast? = some d → d ≠ 0 := by
  induction v using Nat.strong_induction_on with
  | _ v ih =>
    intro d hd
    rw [digitsInBase_eq hb v hv] at hd
    by_cases hq : v / b = 0
    · rw [hq, digitsInBase_zero] at hd
      simp only [List.getLast?_singleton, Option.some.injEq] at hd
      have hvb : v < b := (Nat.div_eq_zero_iff (by omega)).mp hq
      rw [← hd, Nat.mod_eq_of_lt hvb]
      exact hv
    · rw [digitsInBase_eq hb (v / b) hq] at hd
      rw [List.getLast?_cons_cons] at hd
      rw [← digitsInBase_eq hb (v / b) hq] at hd
      exact ih (v / b) (Nat.div_lt_self (by omega) (by omega)) hq d hd

lemma ofDigitsLE_pos {b : Nat} (hb : 2 ≤ b) :
    ∀ M : List Nat, (∀ d, M.getLast? = some d → d ≠ 0) → M ≠ [] → 0 < ofDigitsLE b M := by
  intro M
  induction M with
  | nil => intro _ h; exact absurd rfl h
  | cons x M ih =>
    intro hlast _
    cases M with
    | nil =>
      have : x ≠ 0 := hlast x (by simp)
      simp [ofDigitsLE_cons, ofDigitsLE_nil]
      omega
    | cons y M2 =>
      have hpos : 0 < ofDigitsLE b (y :: M2) := by
        refine ih ?_ (by simp)
        intro d hd
        exact hlast d (by rw [List.getLast?_cons_cons]; exact hd)
      rw [ofDigitsLE_cons]
      have : 0 < b * ofDigitsLE b (y :: M2) := Nat.mul_pos (by omega) hpos
      omega

lemma digitsInBase_ofDigitsLE {b : Nat} (hb : 2 ≤ b) :
    ∀ M : List Nat, (∀ d ∈ M, d < b) → (∀ d, M.getLast? = some d → d ≠ 0) →
      digitsInBase b (ofDigitsLE b M) = M := by
  intro M
  induction M with
  | nil => intro _ _; rfl
  | cons x M ih =>
    intro hmem hlast
    cases M with
    | nil =>
      have hx0 : x ≠ 0 := hlast x (by simp)
      have hxb : x < b := hmem x (by simp)
      rw [ofDigitsLE_cons, ofDigitsLE_nil, Nat.mul_zero, Nat.add_zero,
        digitsInBase_eq hb x hx0, Nat.mod_eq_of_lt hxb, Nat.div_eq_of_lt hxb,
        digitsInBase_zero]
    | cons y M2 =>
      have hxb : x < b := hmem x (by simp)
      have hT : 0 < ofDigitsLE b (y :: M2) := by
        refine ofDigitsLE_pos hb _ ?_ (by simp)
        intro d hd
        exact hlast d (by rw [List.getLast?_cons_cons]; exact hd)
      rw [ofDigitsLE_cons]
      have hne : x + b * ofDigitsLE b (y :: M2) ≠ 0 := by
        have : 0 < b * ofDigitsLE b (y :: M2) := Nat.mul_pos (by omega) hT
        omega
      rw [digitsInBase_eq hb _ hne, Nat.add_mul_mod_self_left, Nat.mod_eq_of_lt hxb,
        Nat.add_mul_div_left _ _ (by omega : 0 < b), Nat.div_eq_of_lt hxb, Nat.zero_add]
      congr 1
      refine ih (fun d hd => hmem d (by simp [hd])) ?_
      intro d hd
      exact hlast d (by rw [List.getLast?_cons_cons]; exact hd)

lemma pyBin_zero : pyBin 0 = [0] := rfl

lemma pyBin_of_ne_zero {v : Nat} (hv : v ≠ 0) : pyBin v = (digitsInBase 2 v).reverse := by
  simp [pyBin, hv]

lemma decimal_to_binary_eq (v : Nat) :
    decimal_to_binary v = List.replicate (32 - (pyBin v).length) 0 ++ pyBin v := by
  by_cases hv : v = 0
  · subst hv; decide
  · have hM : (pyBin v).reverse = digitsInBase 2 v := by
      rw [pyBin_of_ne_zero hv, List.reverse_reverse]
    have hmem : ∀ d ∈ digitsInBase 2 v, d < 10 := by
      intro d hd
      have := digitsInBase_mem_lt (by norm_num : (2:Nat) ≤ 2) v d hd
      omega
    have hlast : ∀ d, (digitsInBase 2 v).getLast? = some d → d ≠ 0 :=
      digitsInBase_getLast (by norm_num) v hv
    have hne : digitsInBase 2 v ≠ [] := by
      rw [digitsInBase_eq (by norm_num) v hv]; simp
    have hpos : 0 < ofDigitsLE 10 (digitsInBase 2 v) :=
      ofDigitsLE_pos (by norm_num) _ hlast hne
    have hround : digitsInBase 10 (ofDigitsLE 10 (digitsInBase 2 v)) = digitsInBase 2 v :=
      digitsInBase_ofDigitsLE (by norm_num) _ hmem hlast
    have hne0 : ofDigitsLE 10 (digitsInBase 2 v) ≠ 0 := Nat.pos_iff_ne_zero.mp hpos
    show pyFormatPad 32 (pyIntOfDigits (pyBin v)) = _
    rw [pyIntOfDigits, hM]
    have hpad : pyFormatPad 32 (ofDigitsLE 10 (digitsInBase 2 v)) =
        List.replicate (32 - (digitsInBase 10 (ofDigitsLE 10 (digitsInBase 2 v))).reverse.length) 0 ++
          (digitsInBase 10 (ofDigitsLE 10 (digitsInBase 2 v))).reverse := by
      simp [pyFormatPad, hne0]
    rw [hpad, hround, ← pyBin_of_ne_zero hv]

lemma pyBin_length_le {v : Nat} (hv : v < 2 ^ 32) : (pyBin v).length ≤ 32 := by
  by_cases h0 : v = 0
  · subst h0; simp [pyBin_zero]
  · rw [pyBin_of_ne_zero h0, List.length_reverse]
    exact digitsInBase_length_le 32 v hv

lemma decimal_to_binary_eq_spec {v : Nat} (hv : v < 2 ^ 32) :
    decimal_to_binary v = specPaddedBits v := by
  by_cases h0 : v = 0
  · subst h0; decide
  · rw [decimal_to_binary_eq, pyBin_of_ne_zero h0]
    simp only [List.length_reverse]
    have hn32 : (digitsInBase 2 v).length ≤ 32 := digitsInBase_length_le 32 v hv
    have hlen1 : (List.replicate (32 - (digitsInBase 2 v).length) (0 : Nat) ++
        (digitsInBase 2 v).reverse).length = 32 := by
      simp only [List.length_append, List.length_replicate, List.length_reverse]
      omega
    have hlen2 : (specPaddedBits v).length = 32 := by
      simp [specPaddedBits]
    refine List.ext_getElem (by rw [hlen1, hlen2]) ?_
    intro i h1 h2
    have hi : i < 32 := by rwa [hlen1] at h1
    simp only [specPaddedBits, List.getElem_map, List.getElem_range]
    by_cases hcase : i < 32 - (digitsInBase 2 v).length
    · rw [List.getElem_append_left (by simpa using hcase)]
      rw [List.getElem_replicate]
      have hge : (digitsInBase 2 v).length ≤ 31 - i := by omega
      have hg := digitsInBase_getD v (31 - i)
      rw [List.getD_eq_default _ _ hge] at hg
      exact hg
    · push_neg at hcase
      rw [List.getElem_append_right (by simpa using hcase)]
      simp only [List.length_replicate, List.getElem_reverse]
      have hjlt : (digitsInBase 2 v).length - 1 - (i - (32 - (digitsInBase 2 v).length)) <
          (digitsInBase 2 v).length := by
        omega
      rw [← List.getD_eq_getElem _ 0 hjlt, digitsInBase_getD]
      have hidx : (digitsInBase 2 v).length - 1 - (i - (32 - (digitsInBase 2 v).length)) =
          31 - i := by
        omega
      rw [hidx]

lemma decimal_to_binary_length {v : Nat} (hv : v < 2 ^ 32) :
    (decimal_to_binary v).length = 32 := by
  rw [decimal_to_binary_eq_spec hv]
  simp [specPaddedBits]

lemma take_drop_map_range {α : Type} (g : Nat → α) (n a b : Nat) (hab : a ≤ b) (hbn : b ≤ n) :
    (((List.range n).map g).take b).drop a = (List.range (b - a)).map (fun i => g (a + i)) := by
  have hlen : ((((List.range n).map g).take b).drop a).length = b - a := by
    simp only [List.length_drop, List.length_take, List.length_map, List.length_range]
    omega
  refine List.ext_getElem (by simp [hlen]) ?_
  intro j h1 h2
  have hj : j < b - a := by rwa [hlen] at h1
  rw [List.getElem_drop, List.getElem_take, List.getElem_map, List.getElem_range,
    List.getElem_map, List.getElem_range]

lemma reverse_map_range {α : Type} (g : Nat → α) (m : Nat) :
    ((List.range m).map g).reverse = (List.range m).map (fun i => g (m - 1 - i)) := by
  induction m generalizing g with
  | zero => rfl
  | succ m ih =>
    have hL : ((List.range (m + 1)).map g).reverse = g m :: ((List.range m).map g).reverse := by
      rw [List.range_succ, List.map_append]
      simp
    have hR : (List.range (m + 1)).map (fun i => g (m + 1 - 1 - i)) =
        g m :: (List.range m).map (fun i => g (m - 1 - i)) := by
      rw [List.range_succ_eq_map, List.map_cons, List.map_map]
      congr 1
      refine List.map_congr_left ?_
      intro i _
      simp only [Function.comp_apply, Nat.succ_eq_add_one]
      congr 1
      omega
    rw [hL, hR, ih g]

lemma mod_two_pow_succ (w m : Nat) : w % 2 ^ (m + 1) = w % 2 + 2 * (w / 2 % 2 ^ m) := by
  have hp : 0 < 2 ^ m := pow_pos (by norm_num) m
  have hr : w % 2 < 2 := Nat.mod_lt w (by norm_num)
  have ha : w / 2 % 2 ^ m < 2 ^ m := Nat.mod_lt (w / 2) hp
  conv_lhs => rw [← Nat.div_add_mod w 2]
  rw [pow_succ']
  conv_lhs => rw [← Nat.div_add_mod (w / 2) (2 ^ m)]
  rw [Nat.mul_add, ← Nat.mul_assoc, Nat.add_assoc, Nat.mul_add_mod,
    Nat.mod_eq_of_lt (by omega)]
  omega

lemma ofDigitsLE_bits (m : Nat) : ∀ w, ofDigitsLE 2 ((List.range m).map (fun i => w / 2 ^ i % 2)) = w % 2 ^ m := by
  induction m with
  | zero => intro w; simp [ofDigitsLE_nil, Nat.mod_one]
  | succ m ih =>
    intro w
    rw [List.range_succ_eq_map, List.map_cons, List.map_map, ofDigitsLE_cons]
    have hmap : List.map ((fun i => w / 2 ^ i % 2) ∘ Nat.succ) (List.range m) =
        List.map (fun i => w / 2 / 2 ^ i % 2) (List.range m) := by
      refine List.map_congr_left ?_
      intro i _
      simp only [Function.comp_apply, Nat.succ_eq_add_one]
      rw [Nat.div_div_eq_div_mul, ← pow_succ']
    rw [hmap, ih (w / 2), pow_zero, Nat.div_one, mod_two_pow_succ]

lemma decodeField_eq {v s e : Nat} (hv : v < 2 ^ 32) (hse : s ≤ e) (he : e ≤ 31) :
    decodeField v s e = v / 2 ^ s % 2 ^ (e - s + 1) := by
  have hlen := decimal_to_binary_length hv
  have hunf : decodeField v s e = binary_to_decimal (pySlice (decimal_to_binary v)
      ((((decimal_to_binary v).length : Int) - s) - ((e : Int) - s) - 1)
      (((decimal_to_binary v).length : Int) - s)) := rfl
  rw [hunf, hlen]
  have hstart : ((((32 : Nat) : Int)) - s) - ((e : Int) - s) - 1 = ((31 - e : Nat) : Int) := by
    omega
  have hend : (((32 : Nat) : Int)) - (s : Int) = ((32 - s : Nat) : Int) := by
    omega
  rw [hstart, hend]
  have hidx1 : pySliceIdx (decimal_to_binary v).length ((31 - e : Nat) : Int) = 31 - e := by
    rw [hlen]
    unfold pySliceIdx
    split_ifs with h <;> omega
  have hidx2 : pySliceIdx (decimal_to_binary v).length ((32 - s : Nat) : Int) = 32 - s := by
    rw [hlen]
    unfold pySliceIdx
    split_ifs with h <;> omega
  have hslice : pySlice (decimal_to_binary v) ((31 - e : Nat) : Int) ((32 - s : Nat) : Int) =
      ((decimal_to_binary v).take (32 - s)).drop (31 - e) := by
    unfold pySlice
    rw [hidx1, hidx2]
  rw [hslice, decimal_to_binary_eq_spec hv]
  unfold specPaddedBits
  rw [take_drop_map_range _ 32 (31 - e) (32 - s) (by omega) (by omega)]
  have hm : (32 - s) - (31 - e) = e - s + 1 := by omega
  rw [hm]
  unfold binary_to_decimal
  rw [reverse_map_range]
  have hcong : (List.range (e - s + 1)).map
        (fun i => (fun j => v / 2 ^ (31 - (31 - e + j)) % 2) ((e - s + 1) - 1 - i)) =
      (List.range (e - s + 1)).map (fun i => (v / 2 ^ s) / 2 ^ i % 2) := by
    refine List.map_congr_left ?_
    intro i hi
    rw [List.mem_range] at hi
    show v / 2 ^ (31 - (31 - e + ((e - s + 1) - 1 - i))) % 2 = (v / 2 ^ s) / 2 ^ i % 2
    have h1 : 31 - (31 - e + ((e - s + 1) - 1 - i)) = s + i := by omega
    rw [h1, pow_add, ← Nat.div_div_eq_div_mul]
  rw [hcong, ofDigitsLE_bits]

lemma dictGet_dictSet_self (d : List (String × Nat)) (k : String) (v : Nat) :
    dictGet (dictSet d k v) k = v := by
  induction d with
  | nil => simp [dictSet, dictHas, dictGet]
  | cons p rest ih =>
    by_cases hp : p.1 = k
    · have hhas : dictHas (p :: rest) k = true := by simp [dictHas, hp]
      simp only [dictSet, hhas, if_true, List.map_cons, hp, dictGet, if_pos rfl]
    · have hstep : dictHas (p :: rest) k = dictHas rest k := by simp [dictHas, hp]
      by_cases hrest : dictHas rest k = true
      · have : dictSet (p :: rest) k v =
            p :: rest.map (fun q => if q.1 = k then (k, v) else q) := by
          simp [dictSet, hstep, hrest, hp]
        rw [this]
        have hset : dictSet rest k v = rest.map (fun q => if q.1 = k then (k, v) else q) := by
          simp [dictSet, hrest]
        simp only [dictGet, hp, if_false]
        rw [← hset, ih]
      · have : dictSet (p :: rest) k v = p :: (rest ++ [(k, v)]) := by
          simp [dictSet, hstep, hrest]
        rw [this]
        have hset : dictSet rest k v = rest ++ [(k, v)] := by
          simp [dictSet, hrest]
        simp only [dictGet, hp, if_false]
        rw [← hset, ih]

lemma dictGet_map_other (rest : List (String × Nat)) {k k2 : String} (v : Nat)
    (hne : k2 ≠ k) :
    dictGet (rest.map (fun q => if q.1 = k2 then (k2, v) else q)) k = dictGet rest k := by
  induction rest with
  | nil => rfl
  | cons q rest2 ih2 =>
    by_cases hq : q.1 = k2
    · have hqk : ¬q.1 = k := by rw [hq]; exact hne
      simp only [List.map_cons, hq, if_true, dictGet, hqk, if_false]
      simp only [if_neg hne]
      exact ih2
    · simp only [List.map_cons, hq, if_false, dictGet]
      by_cases hqk : q.1 = k
      · simp [hqk]
      · simp only [hqk, if_false]
        exact ih2

lemma dictGet_dictSet_other (d : List (String × Nat)) {k k2 : String} (v : Nat)
    (hne : k2 ≠ k) : dictGet (dictSet d k2 v) k = dictGet d k := by
  induction d with
  | nil => simp [dictSet, dictHas, dictGet, hne]
  | cons p rest ih =>
    by_cases hp : p.1 = k2
    · have hhas : dictHas (p :: rest) k2 = true := by simp [dictHas, hp]
      simp only [dictSet, hhas, if_true, List.map_cons, hp, if_pos rfl]
      simp only [dictGet, hne, if_false, hp]
      rw [dictGet_map_other rest v hne]
    · have hstep : dictHas (p :: rest) k2 = dictHas rest k2 := by simp [dictHas, hp]
      by_cases hrest : dictHas rest k2 = true
      · have : dictSet (p :: rest) k2 v =
            p :: rest.map (fun q => if q.1 = k2 then (k2, v) else q) := by
          simp [dictSet, hstep, hrest, hp]
        rw [this]
        have hset : dictSet rest k2 v = rest.map (fun q => if q.1 = k2 then (k2, v) else q) := by
          simp [dictSet, hrest]
        simp only [dictGet]
        by_cases hpk : p.1 = k
        · simp [hpk]
        · simp only [hpk, if_false]
          rw [← hset, ih]
      · have : dictSet (p :: rest) k2 v = p :: (rest ++ [(k2, v)]) := by
          simp [dictSet, hstep, hrest]
        rw [this]
        have hset : dictSet rest k2 v = rest ++ [(k2, v)] := by
          simp [dictSet, hrest]
        simp only [dictGet]
        by_cases hpk : p.1 = k
        · simp [hpk]
        · simp only [hpk, if_false]
          rw [← hset, ih]

lemma foldl_accumOne_mem (p : Nat) :
    ∀ (ranges : List (String × Nat × Nat)) (d : List (String × Nat)),
    List.Pairwise (fun a b => a.1 ≠ b.1) ranges →
    (∀ r ∈ ranges, dictGet (ranges.foldl (accumOne p) d) r.1
        = decodeField p r.2.1 r.2.2 + dictGet d r.1) ∧
    (∀ k, (∀ r ∈ ranges, r.1 ≠ k) → dictGet (ranges.foldl (accumOne p) d) k = dictGet d k) := by
  intro ranges
  induction ranges with
  | nil =>
    intro d _
    exact ⟨by simp, fun k _ => by simp⟩
  | cons r0 rs ih =>
    intro d hpw
    rw [List.pairwise_cons] at hpw
    obtain ⟨hr0, hpw2⟩ := hpw
    have ihd := ih (accumOne p d r0) hpw2
    constructor
    · intro r hr
      rcases List.mem_cons.mp hr with h | h
      · subst h
        rw [List.foldl_cons]
        have hnot : ∀ q ∈ rs, q.1 ≠ r.1 := by
          intro q hq hcontra
          exact (hr0 q hq) hcontra.symm
        rw [ihd.2 r.1 hnot]
        unfold accumOne
        rw [dictGet_dictSet_self]
      · rw [List.foldl_cons, ihd.1 r h]
        congr 1
        unfold accumOne
        exact dictGet_dictSet_other d _ (hr0 r h)
    · intro k hk
      rw [List.foldl_cons, ihd.2 k (fun r hr => hk r (List.mem_cons_of_mem _ hr))]
      unfold accumOne
      exact dictGet_dictSet_other d _ (hk r0 (List.mem_cons_self _ _))

lemma decode_accumulate_loop (ranges : List (String × Nat × Nat))
    (hpw : List.Pairwise (fun a b => a.1 ≠ b.1) ranges) :
    ∀ (pixels : List Nat) (d : List (String × Nat)) (r : String × Nat × Nat), r ∈ ranges →
      dictGet (pixels.foldl (fun d p => ranges.foldl (accumOne p) d) d) r.1 =
        dictGet d r.1 + (pixels.map (fun p => decodeField p r.2.1 r.2.2)).sum := by
  intro pixels
  induction pixels with
  | nil =>
    intro d r _
    simp
  | cons p ps ih =>
    intro d r hr
    rw [List.foldl_cons, ih (ranges.foldl (accumOne p) d) r hr,
      (foldl_accumOne_mem p ranges d hpw).1 r hr]
    simp only [List.map_cons, List.sum_cons]
    omega

lemma decode_accumulate_get (ranges : List (String × Nat × Nat))
    (hpw : List.Pairwise (fun a b => a.1 ≠ b.1) ranges)
    (pixels : List Nat) (r : String × Nat × Nat) (hr : r ∈ ranges) :
    dictGet (decode_accumulate pixels ranges) r.1 =
      (pixels.map (fun p => decodeField p r.2.1 r.2.2)).sum := by
  unfold decode_accumulate
  rw [decode_accumulate_loop ranges hpw pixels [] r hr]
  show 0 + _ = _
  rw [Nat.zero_add]

lemma ofDigitsLE_append_zeros (b : Nat) (M : List Nat) (k : Nat) :
    ofDigitsLE b (M ++ List.replicate k 0) = ofDigitsLE b M := by
  induction M with
  | nil =>
    simp only [List.nil_append, ofDigitsLE_nil]
    induction k with
    | zero => rfl
    | succ k ih =>
      rw [List.replicate_succ, ofDigitsLE_cons, ih]
      simp
  | cons d M ih =>
    rw [List.cons_append, ofDigitsLE_cons, ih, ofDigitsLE_cons]

lemma binary_to_decimal_decimal_to_binary {v : Nat} (hv : v < 2 ^ 32) :
    binary_to_decimal (decimal_to_binary v) = v := by
  by_cases h0 : v = 0
  · subst h0; decide
  · rw [decimal_to_binary_eq, pyBin_of_ne_zero h0]
    unfold binary_to_decimal
    rw [List.reverse_append, List.reverse_replicate, List.reverse_reverse,
      ofDigitsLE_append_zeros]
    exact ofDigitsLE_digitsInBase (by norm_num) v

/-- C10: for every v below 2 to the 32, decimal_to_binary returns the
32-character left-zero-padded binary string of v (each character a binary
digit), although it is computed through a decimal reinterpretation of the
binary digit string, and binary_to_decimal inverts it. -/
theorem C10_decimal_to_binary_roundtrip (v : Nat) (hv : v < 2 ^ 32) :
    decimal_to_binary v = specPaddedBits v ∧
    (decimal_to_binary v).length = 32 ∧
    (∀ d ∈ decimal_to_binary v, d < 2) ∧
    binary_to_decimal (decimal_to_binary v) = v := by
  refine ⟨decimal_to_binary_eq_spec hv, decimal_to_binary_length hv, ?_,
    binary_to_decimal_decimal_to_binary hv⟩
  intro d hd
  rw [decimal_to_binary_eq_spec hv] at hd
  unfold specPaddedBits at hd
  rw [List.mem_map] at hd
  obtain ⟨i, _, hi⟩ := hd
  rw [← hi]
  exact Nat.mod_lt _ (by norm_num)

/-- C10 witness at v = 462. -/
theorem C10_decimal_to_binary_roundtrip_witness :
    decimal_to_binary 462 = specPaddedBits 462 ∧
    (decimal_to_binary 462).length = 32 ∧
    (∀ d ∈ decimal_to_binary 462, d < 2) ∧
    binary_to_decimal (decimal_to_binary 462) = 462 :=
  C10_decimal_to_binary_roundtrip 462 (by decide)

/-- C1: the nearest-scene resolver does not minimize the absolute time
difference: the seconds value it compares is the Python timedelta seconds
attribute, the signed difference reduced modulo 86400, so a candidate 10
seconds before the target gets delta 86390 and loses to a candidate 50
seconds after the target. -/
theorem C1_resolver_uses_mod86400_delta :
    find_matching_image 100000 [(100050, "a"), (99990, "b")] =
      { std := some 100050, seconds := 50, path := some "a" } ∧
    pyTimedeltaSeconds (99990 - 100000) = 86390 ∧
    ((100000 : Int) - 99990).natAbs = 10 ∧ (10 : Int) < 50 := by
  refine ⟨by decide, by decide, by decide, by decide⟩

/-- C6 counterexample: decoding value 300 against the out-of-bounds bit
range (0, 40) returns a decoded map instead of failing with ValueError. -/
theorem C6_counterexample :
    decode 300 [("CLD", 0, 40)] = [("CLD", 300)] := by decide

/-- C6 amended: an out-of-bounds bit range raises no error; the Python
slice indices are clamped, so the range (0, 40) decodes to the low 9 bits
of the value and decode returns a map for every input. -/
theorem C6_amended (v : Nat) (hv : v < 2 ^ 32) :
    decodeField v 0 40 = v % 2 ^ 9 ∧
    decode v [("CLD", 0, 40)] = [("CLD", v % 2 ^ 9)] := by
  have hlen := decimal_to_binary_length hv
  have heq : decodeField v 0 40 = decodeField v 0 8 := by
    have h40 : decodeField v 0 40 = binary_to_decimal (pySlice (decimal_to_binary v)
        ((((decimal_to_binary v).length : Int) - 0) - ((40 : Int) - 0) - 1)
        (((decimal_to_binary v).length : Int) - 0)) := rfl
    have h8 : decodeField v 0 8 = binary_to_decimal (pySlice (decimal_to_binary v)
        ((((decimal_to_binary v).length : Int) - 0) - ((8 : Int) - 0) - 1)
        (((decimal_to_binary v).length : Int) - 0)) := rfl
    rw [h40, h8]
    unfold pySlice
    rw [hlen]
    have hidx : pySliceIdx 32 ((((32 : Nat) : Int)) - 0 - ((40 : Int) - 0) - 1) =
        pySliceIdx 32 ((((32 : Nat) : Int)) - 0 - ((8 : Int) - 0) - 1) := by decide
    rw [hidx]
  have hchar : decodeField v 0 8 = v / 2 ^ 0 % 2 ^ (8 - 0 + 1) :=
    decodeField_eq hv (by omega) (by omega)
  have hval : decodeField v 0 40 = v % 2 ^ 9 := by
    rw [heq, hchar, pow_zero, Nat.div_one]
  refine ⟨hval, ?_⟩
  simp only [decode, List.map_cons, List.map_nil, hval]

/-- C6 amended witness at v = 300. -/
theorem C6_amended_witness :
    decodeField 300 0 40 = 300 % 2 ^ 9 ∧
    decode 300 [("CLD", 0, 40)] = [("CLD", 300 % 2 ^ 9)] :=
  C6_amended 300 (by decide)

/-- C3: for every value below 2 to the 32 the decoder works on the
32-character left-zero-padded binary string; a named range (s, e),
inclusive at both ends and 0-indexed from the least significant bit,
decodes to the unsigned value of bits e down to s; and decode_accumulate
holds, per field name, the sum of that decoded field over all pixels. -/
theorem C3_decode_accumulate
    (v : Nat) (hv : v < 2 ^ 32) (s e : Nat) (hse : s ≤ e) (he : e ≤ 31)
    (pixels : List Nat) (ranges : List (String × Nat × Nat))
    (hpw : List.Pairwise (fun a b => a.1 ≠ b.1) ranges)
    (r : String × Nat × Nat) (hr : r ∈ ranges) :
    decimal_to_binary v = specPaddedBits v ∧
    decodeField v s e = v / 2 ^ s % 2 ^ (e - s + 1) ∧
    dictGet (decode_accumulate pixels ranges) r.1 =
      (pixels.map (fun p => decodeField p r.2.1 r.2.2)).sum :=
  ⟨decimal_to_binary_eq_spec hv, decodeField_eq hv hse he,
    decode_accumulate_get ranges hpw pixels r hr⟩

/-- C3 witness: value 300, range CLD_SHDW = (8, 15), two pixels. -/
theorem C3_decode_accumulate_witness :
    decimal_to_binary 300 = specPaddedBits 300 ∧
    decodeField 300 8 15 = 300 / 2 ^ 8 % 2 ^ (15 - 8 + 1) ∧
    dictGet (decode_accumulate [300, 301] NUM_MAPPINGS) "CLD_SHDW" =
      ([300, 301].map (fun p => decodeField p 8 15)).sum :=
  C3_decode_accumulate 300 (by decide) 8 15 (by decide) (by decide) [300, 301]
    NUM_MAPPINGS (by decide) ("CLD_SHDW", 8, 15) (by decide)

lemma ratFloor_eq_floor (x : ℚ) : x.floor = ⌊x⌋ := rfl

lemma roundHalfEven_nonneg {x : ℚ} (h : 0 ≤ x) : 0 ≤ roundHalfEven x := by
  have hf : (0 : Int) ≤ ⌊x⌋ := Int.le_floor.mpr (by exact_mod_cast h)
  simp only [roundHalfEven, ratFloor_eq_floor]
  split_ifs <;> omega

lemma roundHalfEven_le {x : ℚ} {B : Int} (h : x ≤ (B : ℚ)) : roundHalfEven x ≤ B := by
  have hf : ⌊x⌋ ≤ B := by
    have := Int.floor_le_floor h
    rwa [Int.floor_intCast] at this
  simp only [roundHalfEven, ratFloor_eq_floor]
  split_ifs with h1 h2 h3
  · exact hf
  · rcases lt_or_eq_of_le hf with hlt | heq
    · omega
    · exfalso
      apply h1
      rw [heq]
      have : x - (B : ℚ) ≤ 0 := by linarith
      linarith
  · exact hf
  · rcases lt_or_eq_of_le hf with hlt | heq
    · omega
    · exfalso
      apply h1
      rw [heq]
      have : x - (B : ℚ) ≤ 0 := by linarith
      linarith

lemma pyRound2_bounds {q : ℚ} (h0 : 0 ≤ q) (h1 : q ≤ 100) :
    0 ≤ pyRound2 q ∧ pyRound2 q ≤ 100 := by
  have hx0 : 0 ≤ q * 100 := by positivity
  have hx1 : q * 100 ≤ ((10000 : Int) : ℚ) := by push_cast; linarith
  have hl := roundHalfEven_nonneg hx0
  have hu := roundHalfEven_le hx1
  unfold pyRound2
  constructor
  · apply div_nonneg _ (by norm_num)
    exact_mod_cast hl
  · rw [div_le_iff₀ (by norm_num : (0 : ℚ) < 100)]
    have : ((roundHalfEven (q * 100) : Int) : ℚ) ≤ ((10000 : Int) : ℚ) := by exact_mod_cast hu
    push_cast at this ⊢
    linarith

/-- C5 counterexample: with count 2 and total 1 the percentage is 200,
outside the stated range [0, 100]; and with total 0 the NumPy division
produces infinity with a RuntimeWarning, a value and not a raised
DivisionError. -/
theorem C5_counterexample :
    percent_of_total 2 1 = .finite 200 ∧ ¬((200 : ℚ) ≤ 100) ∧
    percent_of_total 5 0 = .posInf := by
  refine ⟨by with_unfolding_all decide, by norm_num, by with_unfolding_all decide⟩

/-- C5 amended: for a nonzero total the result is round(100 count /
total, 2); it lies in [0, 100] whenever 0 <= count <= total (but not for
count above total); percent_of_total 0 100 = 0; and a zero total raises
nothing: the NumPy division yields infinity for a positive count and nan
for 0/0, with a RuntimeWarning. -/
theorem C5_amended (c t : ℚ) (hc : 0 ≤ c) (hct : c ≤ t) (ht : 0 < t) :
    percent_of_total c t = .finite (pyRound2 (100 * c / t)) ∧
    (∀ x, percent_of_total c t = .finite x → 0 ≤ x ∧ x ≤ 100) ∧
    percent_of_total 0 100 = .finite 0 ∧
    (∀ u : ℚ, 0 < u → percent_of_total u 0 = .posInf) ∧
    percent_of_total 0 0 = .nan := by
  have hq : c / t * 100 = 100 * c / t := by ring
  have hval : percent_of_total c t = .finite (pyRound2 (c / t * 100)) := by
    unfold percent_of_total
    rw [if_neg (ne_of_gt ht)]
  have hb0 : 0 ≤ c / t * 100 := by positivity
  have hb1 : c / t * 100 ≤ 100 := by
    have h1 : c / t ≤ 1 := (div_le_one ht).mpr hct
    nlinarith
  refine ⟨by rw [hval, hq], ?_, by with_unfolding_all decide, ?_,
    by with_unfolding_all decide⟩
  · intro x hx
    rw [hval] at hx
    have hx2 : pyRound2 (c / t * 100) = x := by
      cases hx
      rfl
    rw [← hx2]
    exact pyRound2_bounds hb0 hb1
  · intro u hu
    unfold percent_of_total
    rw [if_pos rfl, if_pos hu]

/-- C5 amended witness at count 1, total 2. -/
theorem C5_amended_witness :
    percent_of_total 1 2 = .finite (pyRound2 (100 * 1 / 2)) ∧
    (∀ x, percent_of_total 1 2 = .finite x → 0 ≤ x ∧ x ≤ 100) ∧
    percent_of_total 0 100 = .finite 0 ∧
    (∀ u : ℚ, 0 < u → percent_of_total u 0 = .posInf) ∧
    percent_of_total 0 0 = .nan :=
  C5_amended 1 2 (by norm_num) (by norm_num) (by norm_num)

lemma foldl_max_mem (x : ℚ) (xs : List ℚ) : xs.foldl max x ∈ x :: xs := by
  induction xs generalizing x with
  | nil => simp
  | cons y ys ih =>
    simp only [List.foldl_cons]
    have h := ih (max x y)
    rcases List.mem_cons.mp h with h | h
    · rw [h]
      rcases max_choice x y with hm | hm <;> rw [hm] <;> simp
    · simp [h]

lemma foldl_max_ge (x : ℚ) (xs : List ℚ) : ∀ a ∈ x :: xs, a ≤ xs.foldl max x := by
  induction xs generalizing x with
  | nil =>
    intro a ha
    simp only [List.mem_singleton] at ha
    simp [ha]
  | cons y ys ih =>
    intro a ha
    simp only [List.foldl_cons]
    rcases List.mem_cons.mp ha with h | h
    · subst h
      exact le_trans (le_max_left a y) (ih (max a y) _ (List.mem_cons_self _ _))
    · rcases List.mem_cons.mp h with h2 | h2
      · subst h2
        exact le_trans (le_max_right x a) (ih (max x a) _ (List.mem_cons_self _ _))
      · exact ih (max x y) a (List.mem_cons_of_mem _ h2)

lemma foldl_min_mem (x : ℚ) (xs : List ℚ) : xs.foldl min x ∈ x :: xs := by
  induction xs generalizing x with
  | nil => simp
  | cons y ys ih =>
    simp only [List.foldl_cons]
    have h := ih (min x y)
    rcases List.mem_cons.mp h with h | h
    · rw [h]
      rcases min_choice x y with hm | hm <;> rw [hm] <;> simp
    · simp [h]

lemma foldl_min_le (x : ℚ) (xs : List ℚ) : ∀ a ∈ x :: xs, xs.foldl min x ≤ a := by
  induction xs generalizing x with
  | nil =>
    intro a ha
    simp only [List.mem_singleton] at ha
    simp [ha]
  | cons y ys ih =>
    intro a ha
    simp only [List.foldl_cons]
    rcases List.mem_cons.mp ha with h | h
    · subst h
      exact le_trans (ih (min a y) _ (List.mem_cons_self _ _)) (min_le_left a y)
    · rcases List.mem_cons.mp h with h2 | h2
      · subst h2
        exact le_trans (ih (min x a) _ (List.mem_cons_self _ _)) (min_le_right x a)
      · exact ih (min x y) a (List.mem_cons_of_mem _ h2)

/-- C7 counterexample: an all-missing array produces the record of NaN
statistics, it does not fail. -/
theorem C7_counterexample :
    extract_stats [none] = { mean := none, max := none, min := none } := by decide

/-- C7 amended: describe returns mean, max and min over the non-missing
entries, each rounded to 2 decimals, with max and min genuine extrema of
the non-missing entries; an all-missing array yields NaN for all three
statistics (with a runtime warning in NumPy) instead of failing. -/
theorem C7_amended (l : List (Option ℚ)) :
    ((∀ x ∈ l, x = none) → extract_stats l = { mean := none, max := none, min := none }) ∧
    (∀ q, some q ∈ l →
      ∃ M m, extract_stats l =
          { mean := some (pyRound2 ((l.filterMap id).sum / ((l.filterMap id).length : ℚ)))
            max := some (pyRound2 M)
            min := some (pyRound2 m) } ∧
        M ∈ l.filterMap id ∧ (∀ x ∈ l.filterMap id, x ≤ M) ∧
        m ∈ l.filterMap id ∧ (∀ x ∈ l.filterMap id, m ≤ x)) := by
  constructor
  · intro hall
    have hemp : l.filterMap id = [] := by
      rw [List.filterMap_eq_nil_iff]
      intro a ha
      rw [hall a ha]
      rfl
    simp [extract_stats, nanmean, nanmax, nanmin, hemp]
  · intro q hq
    have hqmem : q ∈ l.filterMap id := by
      rw [List.mem_filterMap]
      exact ⟨some q, hq, rfl⟩
    obtain ⟨x, xs, hxxs⟩ : ∃ x xs, l.filterMap id = x :: xs := by
      cases hL : l.filterMap id with
      | nil => rw [hL] at hqmem; cases hqmem
      | cons x xs => exact ⟨x, xs, rfl⟩
    have hmean : nanmean l = some ((l.filterMap id).sum / ((l.filterMap id).length : ℚ)) := by
      unfold nanmean
      rw [if_neg (by rw [hxxs]; simp)]
    have hmax : nanmax l = some (xs.foldl max x) := by
      unfold nanmax
      rw [hxxs]
    have hmin : nanmin l = some (xs.foldl min x) := by
      unfold nanmin
      rw [hxxs]
    refine ⟨xs.foldl max x, xs.foldl min x, ?_, ?_, ?_, ?_, ?_⟩
    · unfold extract_stats
      rw [hmean, hmax, hmin]
      rfl
    · rw [hxxs]; exact foldl_max_mem x xs
    · rw [hxxs]; exact foldl_max_ge x xs
    · rw [hxxs]; exact foldl_min_mem x xs
    · rw [hxxs]; exact foldl_min_le x xs

/-- C7 amended witness: an all-missing array and a mixed array. -/
theorem C7_amended_witness :
    extract_stats [none, none] = { mean := none, max := none, min := none } ∧
    (∃ M m, extract_stats [some 1, none, some 2] =
        { mean := some (pyRound2 (([some 1, none, some 2].filterMap id).sum /
            (([some 1, none, some 2].filterMap (id : Option ℚ → Option ℚ)).length : ℚ)))
          max := some (pyRound2 M)
          min := some (pyRound2 m) } ∧
      M ∈ [some 1, none, some 2].filterMap id ∧
      (∀ x ∈ [some 1, none, some 2].filterMap id, x ≤ M) ∧
      m ∈ [some 1, none, some 2].filterMap id ∧
      (∀ x ∈ [some 1, none, some 2].filterMap id, m ≤ x)) :=
  ⟨(C7_amended [none, none]).1 (by simp),
    (C7_amended [some 1, none, some 2]).2 1 (by simp)⟩

lemma assocFind?_isSome_iff {β : Type} (l : List (String × β)) (k : String) :
    (assocFind? l k).isSome = true ↔ k ∈ l.map Prod.fst := by
  induction l with
  | nil => simp [assocFind?]
  | cons p rest ih =>
    by_cases hp : p.1 = k
    · simp [assocFind?, hp]
    · have hp2 : ¬k = p.1 := fun hc => hp hc.symm
      simp [assocFind?, hp, ih, hp2]

lemma assocFind?_eq_some_of_mem {β : Type} {l : List (String × β)}
    (hnd : (l.map Prod.fst).Nodup) {k : String} {v : β} (h : (k, v) ∈ l) :
    assocFind? l k = some v := by
  induction l with
  | nil => cases h
  | cons p rest ih =>
    rw [List.map_cons, List.nodup_cons] at hnd
    rcases List.mem_cons.mp h with h1 | h1
    · rw [← h1]
      simp [assocFind?]
    · have hp : ¬p.1 = k := by
        intro hc
        apply hnd.1
        rw [hc]
        exact List.mem_map.mpr ⟨(k, v), h1, rfl⟩
      simp only [assocFind?, hp, if_false]
      exact ih hnd.2 h1

lemma assocFind?_mem {β : Type} {l : List (String × β)} {k : String} {v : β}
    (h : assocFind? l k = some v) : (k, v) ∈ l := by
  induction l with
  | nil => simp [assocFind?] at h
  | cons p rest ih =>
    by_cases hp : p.1 = k
    · obtain ⟨a, b⟩ := p
      simp only at hp
      subst hp
      have h2 : some b = some v := by
        rw [← h]
        simp [assocFind?]
      rw [Option.some_inj] at h2
      rw [← h2]
      exact List.mem_cons_self _ _
    · simp only [assocFind?, hp, if_false] at h
      exact List.mem_cons_of_mem _ (ih h)

lemma correlate_keys (sky ground : List (String × List (String × ℚ))) :
    (correlate sky ground).map Prod.fst =
      (sky.map Prod.fst).filter (fun k => (assocFind? ground k).isSome) := by
  induction sky with
  | nil => rfl
  | cons s rest ih =>
    unfold correlate at ih ⊢
    rw [List.filterMap_cons, List.map_cons, List.filter_cons]
    cases hfind : assocFind? ground s.1 with
    | none =>
      simp only [hfind, Option.isSome_none]
      rw [if_neg (by simp)]
      exact ih
    | some g =>
      simp only [hfind, Option.isSome_some]
      rw [if_pos trivial, List.map_cons, ih]

/-- C8: the correlated output is an inner join on the day keys: the keys
are exactly the sky-side keys also present on the ground side, in the
insertion order of the sky side, each record being the union of the two
field sets under the distinct prefixes sky_ and grnd_; a key present on
only one side is dropped. -/
theorem C8_correlate (sky ground : List (String × List (String × ℚ)))
    (_hsk : (sky.map Prod.fst).Nodup) (hgk : (ground.map Prod.fst).Nodup) :
    (correlate sky ground).map Prod.fst =
      (sky.map Prod.fst).filter (fun k => decide (k ∈ ground.map Prod.fst)) ∧
    (∀ k sv gv, (k, sv) ∈ sky → (k, gv) ∈ ground →
      (k, addPre "sky_" sv ++ addPre "grnd_" gv) ∈ correlate sky ground) ∧
    (∀ k rec, (k, rec) ∈ correlate sky ground →
      ∃ sv gv, (k, sv) ∈ sky ∧ (k, gv) ∈ ground ∧
        rec = addPre "sky_" sv ++ addPre "grnd_" gv) := by
  refine ⟨?_, ?_, ?_⟩
  · rw [correlate_keys]
    congr 1
    funext k
    by_cases h : k ∈ ground.map Prod.fst
    · rw [(assocFind?_isSome_iff ground k).mpr h, decide_eq_true h]
    · have h2 : (assocFind? ground k).isSome ≠ true :=
        fun hc => h ((assocFind?_isSome_iff ground k).mp hc)
      have h3 : (assocFind? ground k).isSome = false := Bool.eq_false_iff.mpr h2
      rw [h3, decide_eq_false h]
  · intro k sv gv hs hg
    unfold correlate
    rw [List.mem_filterMap]
    refine ⟨(k, sv), hs, ?_⟩
    rw [assocFind?_eq_some_of_mem hgk hg]
  · intro k rec hrec
    unfold correlate at hrec
    rw [List.mem_filterMap] at hrec
    obtain ⟨a, ha, hfa⟩ := hrec
    cases hfind : assocFind? ground a.1 with
    | none => rw [hfind] at hfa; simp at hfa
    | some g =>
      rw [hfind] at hfa
      simp only [Option.some_inj, Prod.mk.injEq] at hfa
      obtain ⟨hk, hrec2⟩ := hfa
      refine ⟨a.2, g, ?_, ?_, hrec2.symm⟩
      · rw [← hk]
        exact ha
      · rw [← hk]
        exact assocFind?_mem hfind

/-- C8 witness on the scenario with one shared key and one ground-only
key. -/
theorem C8_correlate_witness :
    (correlate skyEx groundEx).map Prod.fst =
      (skyEx.map Prod.fst).filter (fun k => decide (k ∈ groundEx.map Prod.fst)) ∧
    (∀ k sv gv, (k, sv) ∈ skyEx → (k, gv) ∈ groundEx →
      (k, addPre "sky_" sv ++ addPre "grnd_" gv) ∈ correlate skyEx groundEx) ∧
    (∀ k rec, (k, rec) ∈ correlate skyEx groundEx →
      ∃ sv gv, (k, sv) ∈ skyEx ∧ (k, gv) ∈ groundEx ∧
        rec = addPre "sky_" sv ++ addPre "grnd_" gv) :=
  C8_correlate skyEx groundEx (by decide) (by decide)

/-- C2 counterexample: the point (0.5, 0.2) is classified CLOUD by the
code, not CLEAR: f_above_or_below returns 0 and GroundImage.process
counts only the value 1 as clear. -/
theorem C2_counterexample :
    classify (1/2, 1/5) = .ok Label.CLOUD ∧
    f_above_or_below (some (1/2), some (1/5)) canonicalBoundary = .ok 0 := by
  constructor <;> with_unfolding_all decide

/-- C2 amended: for a point with x inside the boundary domain [0, 1], the
scan picks the first vertex whose y is strictly below the y of the point;
with no such vertex the point is CLOUD, otherwise it is CLEAR when x is
at least the x of that vertex and CLOUD when it is smaller. -/
theorem C2_amended (x y : ℚ) (h0 : 0 ≤ x) (h1 : x ≤ 1) :
    classify (x, y) =
      .ok (match canonicalBoundary.find? (fun v => decide (v.2 < y)) with
        | none => Label.CLOUD
        | some v => if v.1 ≤ x then Label.CLEAR else Label.CLOUD) := by
  have hmin : boundaryMinX canonicalBoundary = 0 := by with_unfolding_all decide
  have hmax : boundaryMaxX canonicalBoundary = 1 := by with_unfolding_all decide
  unfold classify f_above_or_below
  simp only []
  rw [hmin, hmax]
  have hlt : pyLt (some x) 0 = false := by
    simp only [pyLt]
    exact decide_eq_false (not_lt.mpr h0)
  have hgt : pyGt (some x) 1 = false := by
    simp only [pyGt]
    exact decide_eq_false (not_lt.mpr h1)
  rw [hlt, hgt]
  rw [if_neg (by simp : ¬((false || false) = true))]
  have hpred : (fun v : ℚ × ℚ => pyGt (some y) v.2) = (fun v => decide (v.2 < y)) := rfl
  rw [hpred]
  cases hfind : canonicalBoundary.find? (fun v => decide (v.2 < y)) with
  | none => rfl
  | some v =>
    simp only []
    by_cases hxv : x < v.1
    · have hc : pyLt (some x) v.1 = true := by
        simp only [pyLt]
        exact decide_eq_true hxv
      rw [hc, if_neg (not_le.mpr hxv)]
      rfl
    · have hc : pyLt (some x) v.1 = false := by
        simp only [pyLt]
        exact decide_eq_false hxv
      rw [hc, if_pos (not_lt.mp hxv)]
      rfl

/-- C2 amended witness at the point (0.5, 0.2). -/
theorem C2_amended_witness :
    classify (1/2, 1/5) =
      .ok (match canonicalBoundary.find? (fun v => decide (v.2 < (1/5 : ℚ))) with
        | none => Label.CLOUD
        | some v => if v.1 ≤ (1/2 : ℚ) then Label.CLEAR else Label.CLOUD) :=
  C2_amended (1/2) (1/5) (by norm_num) (by norm_num)

lemma f_ok_of_dom (p : Option ℚ × Option ℚ)
    (h : ∀ q, p.1 = some q → 0 ≤ q ∧ q ≤ 1) :
    f_above_or_below p canonicalBoundary = .ok (fPure p) := by
  have hmin : boundaryMinX canonicalBoundary = 0 := by with_unfolding_all decide
  have hmax : boundaryMaxX canonicalBoundary = 1 := by with_unfolding_all decide
  have hdom : (pyLt p.1 (boundaryMinX canonicalBoundary) ||
      pyGt p.1 (boundaryMaxX canonicalBoundary)) = false := by
    rw [hmin, hmax]
    cases hp : p.1 with
    | none => rfl
    | some q =>
      obtain ⟨hq0, hq1⟩ := h q hp
      simp only [pyLt, pyGt]
      rw [decide_eq_false (not_lt.mpr hq0), decide_eq_false (not_lt.mpr hq1)]
      rfl
  have hex : ∃ n, f_above_or_below p canonicalBoundary = .ok n := by
    unfold f_above_or_below
    rw [if_neg (by rw [hdom]; simp)]
    cases canonicalBoundary.find? (fun v => pyGt p.2 v.2) with
    | none => exact ⟨0, rfl⟩
    | some v =>
      simp only []
      by_cases hc : pyLt p.1 v.1 = true
      · exact ⟨0, by rw [if_pos hc]⟩
      · exact ⟨1, by rw [if_neg hc]⟩
  obtain ⟨n, hn⟩ := hex
  rw [hn]
  unfold fPure
  rw [hn]

lemma classify_image_ok (bi si : List (Option ℚ))
    (hdom : ∀ x ∈ bi, ∀ q, x = some q → 0 ≤ q ∧ q ≤ 1) :
    classify_image bi si = .ok ((bi.zip si).map fPure) := by
  unfold classify_image
  have hdom2 : ∀ p ∈ bi.zip si, ∀ q, p.1 = some q → 0 ≤ q ∧ q ≤ 1 := by
    intro p hp
    obtain ⟨a, b⟩ := p
    exact hdom a (List.of_mem_zip hp).1
  revert hdom2
  generalize bi.zip si = P
  intro hdom2
  induction P with
  | nil => rfl
  | cons p ps ih =>
    rw [List.mapM_cons, f_ok_of_dom p (hdom2 p (List.mem_cons_self _ _)),
      ih (fun q hq => hdom2 q (List.mem_cons_of_mem _ hq))]
    rfl

lemma fPure_si_none (p : Option ℚ × Option ℚ) (h : p.2 = none) : fPure p = 0 := by
  unfold fPure f_above_or_below
  have hfind : canonicalBoundary.find? (fun v => pyGt p.2 v.2) = none := by
    rw [List.find?_eq_none]
    intro v _
    rw [h]
    simp [pyGt]
  by_cases hc : (pyLt p.1 (boundaryMinX canonicalBoundary) ||
      pyGt p.1 (boundaryMaxX canonicalBoundary)) = true
  · rw [if_pos hc]
  · rw [if_neg hc, hfind]

lemma fPure_bi_none (p : Option ℚ × Option ℚ) (hbi : p.1 = none) (y : ℚ)
    (hsi : p.2 = some y) : fPure p = if 0 < y then 1 else 0 := by
  unfold fPure f_above_or_below
  have hdom : (pyLt p.1 (boundaryMinX canonicalBoundary) ||
      pyGt p.1 (boundaryMaxX canonicalBoundary)) = false := by
    rw [hbi]
    rfl
  rw [if_neg (by rw [hdom]; simp)]
  by_cases hy : 0 < y
  · have hsome : (canonicalBoundary.find? (fun v => pyGt p.2 v.2)).isSome = true := by
      rw [List.find?_isSome]
      refine ⟨(1, 0), by with_unfolding_all decide, ?_⟩
      rw [hsi]
      simp only [pyGt]
      exact decide_eq_true hy
    obtain ⟨v, hv⟩ := Option.isSome_iff_exists.mp hsome
    rw [hv]
    simp only []
    rw [hbi]
    rw [if_neg (by simp [pyLt] : ¬((pyLt none v.1) = true)), if_pos hy]
  · have hfind : canonicalBoundary.find? (fun v => pyGt p.2 v.2) = none := by
      rw [List.find?_eq_none]
      intro v hv
      rw [hsi]
      simp only [pyGt, decide_eq_true_eq, not_lt]
      have hy2 : y ≤ 0 := not_lt.mp hy
      fin_cases hv <;> [skip; skip; skip; skip; skip; skip] <;> dsimp only <;> linarith
    rw [hfind, if_neg hy]

lemma pixel_total_eq (bi si : List (Option ℚ)) :
    pixel_total bi si = (countBothValid bi si : ℚ) + (countOneValid bi si : ℚ) / 2 := by
  have key : ∀ P : List (Option ℚ × Option ℚ),
      (P.map (fun p => (if p.1.isSome then (1 : Nat) else 0) +
          (if p.2.isSome then 1 else 0))).sum
        = 2 * (P.filter (fun p => p.1.isSome && p.2.isSome)).length
          + (P.filter (fun p => p.1.isSome != p.2.isSome)).length := by
    intro P
    induction P with
    | nil => rfl
    | cons p ps ih =>
      rw [List.map_cons, List.sum_cons, ih, List.filter_cons, List.filter_cons]
      cases hp1 : p.1.isSome <;> cases hp2 : p.2.isSome <;>
        simp [hp1, hp2] <;> omega
  simp only [pixel_total, countBothValid, countOneValid]
  rw [key]
  push_cast
  ring

/-- C4 counterexample: the pixel with NaN BI and valid SI 0.5 receives
the ordinary mask value 1 and contributes one half to the valid-pixel
count, so NaN positions are neither preserved as unclassified nor
excluded from the total. -/
theorem C4_counterexample :
    classify_image [none] [some (1/2)] = .ok [1] ∧
    pixel_total [none] [some (1/2)] = 1/2 := by
  constructor <;> with_unfolding_all decide

/-- C4 amended: on same-shape in-domain channels the mask has the shape
of the input, but NaN pixels receive numeric labels: a pixel with NaN SI
gets 0, a pixel with NaN BI and valid SI y gets 1 exactly when 0 < y; and
the valid-pixel count weighs a pixel with exactly one NaN coordinate by
one half instead of excluding it. -/
theorem C4_amended (bi si : List (Option ℚ)) (hlen : bi.length = si.length)
    (hdom : ∀ x ∈ bi, ∀ q, x = some q → 0 ≤ q ∧ q ≤ 1) :
    ∃ mask, classify_image bi si = .ok mask ∧ mask.length = bi.length ∧
      (∀ i, i < mask.length → si.getD i none = none → mask.getD i 0 = 0) ∧
      (∀ i y, i < mask.length → bi.getD i none = none → si.getD i none = some y →
        mask.getD i 0 = if 0 < y then 1 else 0) ∧
      pixel_total bi si = (countBothValid bi si : ℚ) + (countOneValid bi si : ℚ) / 2 := by
  have hzlen : (bi.zip si).length = bi.length := by
    rw [List.length_zip, hlen, min_self]
  refine ⟨(bi.zip si).map fPure, classify_image_ok bi si hdom, ?_, ?_, ?_,
    pixel_total_eq bi si⟩
  · rw [List.length_map, hzlen]
  · intro i hi hsi
    have hilt : i < (bi.zip si).length := by rwa [List.length_map] at hi
    have hsilen : i < si.length := by rw [List.length_zip] at hilt; omega
    rw [List.getD_eq_getElem _ 0 hi, List.getElem_map, List.getElem_zip]
    rw [List.getD_eq_getElem _ none hsilen] at hsi
    exact fPure_si_none _ hsi
  · intro i y hi hbi hsi
    have hilt : i < (bi.zip si).length := by rwa [List.length_map] at hi
    have hsilen : i < si.length := by rw [List.length_zip] at hilt; omega
    have hbilen : i < bi.length := by rw [List.length_zip] at hilt; omega
    rw [List.getD_eq_getElem _ 0 hi, List.getElem_map, List.getElem_zip]
    rw [List.getD_eq_getElem _ none hsilen] at hsi
    rw [List.getD_eq_getElem _ none hbilen] at hbi
    exact fPure_bi_none _ hbi y hsi

/-- C4 amended witness: BI = [NaN, 0.5], SI = [0.5, NaN]. -/
theorem C4_amended_witness :
    ∃ mask, classify_image [none, some (1/2)] [some (1/2), none] = .ok mask ∧
      mask.length = ([none, some (1/2)] : List (Option ℚ)).length ∧
      (∀ i, i < mask.length →
        ([some (1/2), none] : List (Option ℚ)).getD i none = none → mask.getD i 0 = 0) ∧
      (∀ i y, i < mask.length →
        ([none, some (1/2)] : List (Option ℚ)).getD i none = none →
        ([some (1/2), none] : List (Option ℚ)).getD i none = some y →
        mask.getD i 0 = if 0 < y then 1 else 0) ∧
      pixel_total [none, some (1/2)] [some (1/2), none] =
        (countBothValid [none, some (1/2)] [some (1/2), none] : ℚ) +
          (countOneValid [none, some (1/2)] [some (1/2), none] : ℚ) / 2 :=
  C4_amended [none, some (1/2)] [some (1/2), none] (by decide)
    (by
      intro x hx q hq
      rcases List.mem_cons.mp hx with h | h
      · rw [h] at hq; cases hq
      · rcases List.mem_cons.mp h with h2 | h2
        · rw [h2] at hq
          rw [Option.some_inj] at hq
          rw [← hq]
          norm_num
        · cases h2)

